import Mathlib

set_option maxHeartbeats 1000000

namespace Cheerp

/-- Compile-time C++ type descriptors as consumed by the compatibility oracle in
`src/cheerp/jshelper.h`.  Arithmetic types carry a numeric identity (0 = `int`,
1 = `char`, ...); every pair of arithmetic types is implicitly interconvertible.
`anyTy` is `client::_Any`, `unionTy` is `client::_Union<Variants...>`,
`functionTy s` is `client::_Function<s>` (where `s` is normally a raw C++
function type `fnTy ret params`), `tarray` is `client::TArray<T>`,
`arrTy e n` is the C-array type `e[n]` (the shape of string literals), and
`named id bases` is a plain class identified by `id` with its list of direct
base classes.  `ptr`, `ref`, `constQ`, `volatileQ` are the usual type
constructors stripped by the normalizer. -/
inductive Ty where
  | void
  | arith (id : Nat)
  | anyTy
  | unionTy (variants : List Ty)
  | functionTy (sig : Ty)
  | fnTy (ret : Ty) (params : List Ty)
  | tarray (elem : Ty)
  | arrTy (elem : Ty) (len : Nat)
  | named (id : Nat) (bases : List Ty)
  | ptr (t : Ty)
  | ref (t : Ty)
  | constQ (t : Ty)
  | volatileQ (t : Ty)

mutual

/-- Structural (syntactic) equality of type descriptors, the model of
`std::is_same_v` and of C++ type identity. -/
def Ty.beq : Ty → Ty → Bool
  | .void, .void => true
  | .arith i, .arith j => i == j
  | .anyTy, .anyTy => true
  | .unionTy vs, .unionTy ws => Ty.beqList vs ws
  | .functionTy f, .functionTy g => Ty.beq f g
  | .fnTy r ps, .fnTy s qs => Ty.beq r s && Ty.beqList ps qs
  | .tarray e, .tarray f => Ty.beq e f
  | .arrTy e n, .arrTy f m => Ty.beq e f && n == m
  | .named i bs, .named j cs => i == j && Ty.beqList bs cs
  | .ptr a, .ptr b => Ty.beq a b
  | .ref a, .ref b => Ty.beq a b
  | .constQ a, .constQ b => Ty.beq a b
  | .volatileQ a, .volatileQ b => Ty.beq a b
  | _, _ => false

/-- Pointwise structural equality of lists of type descriptors. -/
def Ty.beqList : List Ty → List Ty → Bool
  | [], [] => true
  | a :: as, b :: bs => Ty.beq a b && Ty.beqList as bs
  | _, _ => false

end

/-- Model of `std::remove_cv_t`: strips all top-level const/volatile qualifiers
(nested `constQ`/`volatileQ` wrappers model the cv flag set of one C++ type). -/
def stripCV : Ty → Ty
  | .constQ t => stripCV t
  | .volatileQ t => stripCV t
  | t => t

/-- Model of `std::remove_reference_t`: strips a top-level reference. -/
def removeReference : Ty → Ty
  | .ref t => t
  | t => t

/-- Model of `std::remove_pointer_t`: if the type is a (possibly cv-qualified)
pointer, yields the pointee, otherwise the type unchanged. -/
def removePointer (t : Ty) : Ty :=
  match stripCV t with
  | .ptr u => u
  | _ => t

/-- Model of `Normalize` (src/cheerp/jshelper.h line 27):
`std::remove_cv_t<std::remove_pointer_t<std::remove_reference_t<T>>>`. -/
def normalize (t : Ty) : Ty :=
  stripCV (removePointer (removeReference t))

/-- Model of `std::decay_t` restricted to the shapes in this model: strip a
reference, then turn an array into a pointer to its element, a function type
into a pointer to it, and otherwise strip cv-qualifiers. -/
def decay (t : Ty) : Ty :=
  match removeReference t with
  | .arrTy e _ => .ptr e
  | .fnTy r ps => .ptr (.fnTy r ps)
  | u => stripCV u

/-- Predicate: is the top constructor a pointer (`std::is_pointer_v` on a
cv-unqualified type). -/
def isPtrT : Ty → Bool
  | .ptr _ => true
  | _ => false

/-- Predicate: is the top constructor a reference (`std::is_reference_v`). -/
def isRefT : Ty → Bool
  | .ref _ => true
  | _ => false

/-- Model of `std::is_const_v`: the type carries a top-level const qualifier
(looking through volatile, since cv forms one flag set in C++). -/
def isConstT : Ty → Bool
  | .constQ _ => true
  | .volatileQ t => isConstT t
  | _ => false

/-- Model of `std::is_void_v`. -/
def isVoidT : Ty → Bool
  | .void => true
  | _ => false

/-- Model of `std::is_same_v<_, client::_Any>`. -/
def isAnyT : Ty → Bool
  | .anyTy => true
  | _ => false

/-- Model of `std::is_arithmetic_v`. -/
def isArithT : Ty → Bool
  | .arith _ => true
  | _ => false

/-- Predicate: the type is a class type (for `std::is_base_of_v`, which is
false whenever either side is a non-class type).  `client::_Any`,
`client::_Union<...>`, `client::_Function<...>`, `client::TArray<...>` and
plain named classes are the class types of the model. -/
def isClassT : Ty → Bool
  | .anyTy => true
  | .unionTy _ => true
  | .functionTy _ => true
  | .tarray _ => true
  | .named _ _ => true
  | _ => false

/-- Predicate: the type is an instantiation `To<T...>` of a class template, the
shapes matched by the partial specialization `CanCastHelper<From, To<T...>>`
(src/cheerp/jshelper.h lines 48-60).  In the model the class templates are
`client::_Union`, `client::_Function` and `client::TArray`. -/
def isTemplateInst : Ty → Bool
  | .unionTy _ => true
  | .functionTy _ => true
  | .tarray _ => true
  | _ => false

/-- Predicate: the top constructor is a union. -/
def isUnionT : Ty → Bool
  | .unionTy _ => true
  | _ => false

/-- Identity of the external class `client::Function` (a direct base of
`client::_Function<F>` per src/cheerp/function.h line 8; its own definition is
outside this repository, so it is modeled as a base-less class). -/
def FunctionClass : Ty := .named 100 []

/-- Identity of the external class `client::Object` (the other direct base of
`client::_Function<F>` per src/cheerp/function.h line 8). -/
def ObjectClass : Ty := .named 101 []

/-- Direct base classes of a type: a named class lists its bases;
`client::_Function<F>` derives from `client::Function` and `client::Object`
(src/cheerp/function.h line 8); the remaining foreign classes are declared
without bases in src/cheerp/jshelper.h. -/
def directBases : Ty → List Ty
  | .named _ bs => bs
  | .functionTy _ => [FunctionClass, ObjectClass]
  | _ => []

mutual

/-- All (transitive) base classes of a type, used to model `std::is_base_of_v`
and the derived-to-base pointer conversion in the `test` overload of
`CanCastHelper<From, To<T...>>` (src/cheerp/jshelper.h lines 50-59). -/
def ancestors : Ty → List Ty
  | .named _ bs => ancestorsList bs
  | .functionTy _ => [FunctionClass, ObjectClass]
  | _ => []

/-- Transitive closure of a list of direct bases. -/
def ancestorsList : List Ty → List Ty
  | [] => []
  | b :: bs => b :: ancestors b ++ ancestorsList bs

end

/-- Boolean membership in a list of types. -/
def memTy (x : Ty) : List Ty → Bool
  | [] => false
  | y :: ys => Ty.beq x y || memTy x ys

/-- Model of `std::is_base_of_v<To, From>`: both are class types (ignoring
top-level cv-qualification) and `To` is `From` itself or one of its transitive
base classes. -/
def isBaseOf (to_ from_ : Ty) : Bool :=
  let t := stripCV to_
  let f := stripCV from_
  isClassT t && isClassT f && (Ty.beq t f || memTy t (ancestors f))

/-- Predicate: the type is an instantiation of `client::TArray`. -/
def isTArrayInst : Ty → Bool
  | .tarray _ => true
  | _ => false

/-- Predicate: the type is an instantiation of `client::_Function`. -/
def isFunctionInst : Ty → Bool
  | .functionTy _ => true
  | _ => false

/-- Template-argument deduction against a list of base-class candidates: the
`test(To<U...>*)` overload of `CanCastHelper<From, To<T...>>` deduces `U...`
only when the matching base instantiation is unique; several distinct matching
bases make deduction fail, selecting the `test(void*)` overload. -/
def uniqueCandidate : List Ty → Option Ty
  | [] => none
  | b :: bs => if bs.all (fun x => Ty.beq x b) then some b else none

/-- Conjunction over `Option Bool`, where `none` models an ill-formed
template instantiation: every operand of a C++ fold expression or `&&`
initializer is instantiated, so `none` is strict in both arguments. -/
def oand : Option Bool → Option Bool → Option Bool
  | some a, some b => some (a && b)
  | _, _ => none

/-- Disjunction over `Option Bool`, strict in `none` like `oand`. -/
def oor : Option Bool → Option Bool → Option Bool
  | some a, some b => some (a || b)
  | _, _ => none

mutual

/-- Structural size of a type descriptor (numeric identities do not count),
used as the termination measure of the compatibility oracle. -/
def Ty.tsize : Ty → Nat
  | .void | .arith _ | .anyTy => 1
  | .unionTy vs => 1 + Ty.tsizeList vs
  | .functionTy f => 1 + Ty.tsize f
  | .fnTy r ps => 1 + Ty.tsize r + Ty.tsizeList ps
  | .tarray e => 1 + Ty.tsize e
  | .arrTy e _ => 1 + Ty.tsize e
  | .named _ bs => 1 + Ty.tsizeList bs
  | .ptr t => 1 + Ty.tsize t
  | .ref t => 1 + Ty.tsize t
  | .constQ t => 1 + Ty.tsize t
  | .volatileQ t => 1 + Ty.tsize t

/-- Total structural size of a list of type descriptors (one is added for the
list itself, keeping every size positive). -/
def Ty.tsizeList : List Ty → Nat
  | [] => 1
  | t :: ts => Ty.tsize t + Ty.tsizeList ts

end

theorem tsize_pos (t : Ty) : 1 ≤ t.tsize := by
  cases t <;> simp [Ty.tsize] <;> omega

theorem tsizeList_pos (l : List Ty) : 1 ≤ Ty.tsizeList l := by
  cases l with
  | nil => simp [Ty.tsizeList]
  | cons x xs =>
    have := tsize_pos x
    simp only [Ty.tsizeList]
    omega

theorem tsize_stripCV_le : (t : Ty) → (stripCV t).tsize ≤ t.tsize
  | .constQ u => by
    have := tsize_stripCV_le u
    simp only [stripCV, Ty.tsize]
    omega
  | .volatileQ u => by
    have := tsize_stripCV_le u
    simp only [stripCV, Ty.tsize]
    omega
  | .void | .arith _ | .anyTy | .unionTy _ | .functionTy _ | .fnTy _ _
  | .tarray _ | .arrTy _ _ | .named _ _ | .ptr _ | .ref _ => le_rfl

theorem tsize_removeReference_le (t : Ty) : (removeReference t).tsize ≤ t.tsize := by
  cases t <;> simp [removeReference, Ty.tsize] <;> omega

theorem tsize_removePointer_le (t : Ty) : (removePointer t).tsize ≤ t.tsize := by
  unfold removePointer
  split
  case _ u h =>
    have h2 := tsize_stripCV_le t
    rw [h] at h2
    simp only [Ty.tsize] at h2
    omega
  case _ => exact le_rfl

theorem tsize_normalize_le (t : Ty) : (normalize t).tsize ≤ t.tsize := by
  unfold normalize
  calc (stripCV (removePointer (removeReference t))).tsize
      ≤ (removePointer (removeReference t)).tsize := tsize_stripCV_le _
    _ ≤ (removeReference t).tsize := tsize_removePointer_le _
    _ ≤ t.tsize := tsize_removeReference_le _

theorem normalize_ptr (x : Ty) : normalize (.ptr x) = stripCV x := rfl

theorem ancestorsList_cons (x : Ty) (xs : List Ty) :
    ancestorsList (x :: xs) = x :: (ancestors x ++ ancestorsList xs) := rfl

theorem ancestors_functionTy (s : Ty) :
    ancestors (.functionTy s) = [FunctionClass, ObjectClass] := rfl

theorem ancestors_named (i : Nat) (bs : List Ty) :
    ancestors (.named i bs) = ancestorsList bs := rfl

theorem mem_ancestors_tsize_aux :
    ∀ n, (∀ f b : Ty, f.tsize ≤ n → b ∈ ancestors f → isTemplateInst b = true →
        b.tsize < f.tsize) ∧
      (∀ l : List Ty, ∀ b : Ty, Ty.tsizeList l ≤ n → b ∈ ancestorsList l →
        isTemplateInst b = true → b.tsize ≤ Ty.tsizeList l) := by
  intro n
  induction n with
  | zero =>
    constructor
    · intro f b hf _ _
      exact absurd hf (by have := tsize_pos f; omega)
    · intro l b hl _ _
      exact absurd hl (by have := tsizeList_pos l; omega)
  | succ n ih =>
    have hty : ∀ f b : Ty, f.tsize ≤ n + 1 → b ∈ ancestors f →
        isTemplateInst b = true → b.tsize < f.tsize := by
      intro f b hf hb ht
      cases f with
      | functionTy s =>
        rw [ancestors_functionTy] at hb
        simp only [List.mem_cons, List.not_mem_nil, or_false] at hb
        rcases hb with h | h <;>
          (subst h; simp [FunctionClass, ObjectClass, isTemplateInst] at ht)
      | named i bs =>
        rw [ancestors_named] at hb
        have := ih.2 bs b (by simp only [Ty.tsize] at hf; omega) hb ht
        simp only [Ty.tsize]
        omega
      | _ => simp [ancestors] at hb
    constructor
    · exact hty
    · intro l b hl hb ht
      cases l with
      | nil => simp [ancestorsList] at hb
      | cons x xs =>
        rw [ancestorsList_cons] at hb
        simp only [List.mem_cons, List.mem_append] at hb
        simp only [Ty.tsizeList] at hl ⊢
        have hx := tsize_pos x
        rcases hb with h | h | h
        · subst h; have := tsizeList_pos xs; omega
        · have := hty x b (by have := tsizeList_pos xs; omega) h ht
          have := tsizeList_pos xs
          omega
        · have := ih.2 xs b (by omega) h ht
          omega

theorem tsize_lt_of_mem_ancestors_ti {f b : Ty} (h : b ∈ ancestors f)
    (ht : isTemplateInst b = true) : b.tsize < f.tsize :=
  (mem_ancestors_tsize_aux f.tsize).1 f b le_rfl h ht

theorem isTemplateInst_of_isTArrayInst {b : Ty} (h : isTArrayInst b = true) :
    isTemplateInst b = true := by
  cases b <;> simp [isTArrayInst, isTemplateInst] at h ⊢

theorem isTemplateInst_of_isFunctionInst {b : Ty} (h : isFunctionInst b = true) :
    isTemplateInst b = true := by
  cases b <;> simp [isFunctionInst, isTemplateInst] at h ⊢

theorem uniqueCandidate_mem {l : List Ty} {b : Ty} (h : uniqueCandidate l = some b) :
    b ∈ l := by
  cases l with
  | nil => simp [uniqueCandidate] at h
  | cons x xs =>
    simp only [uniqueCandidate] at h
    split at h
    · simp_all
    · simp at h

theorem uniqueCandidate_filter {l : List Ty} {p : Ty → Bool} {b : Ty}
    (h : uniqueCandidate (l.filter p) = some b) : b ∈ l ∧ p b = true := by
  have hm := uniqueCandidate_mem h
  exact ⟨List.mem_of_mem_filter hm, List.of_mem_filter hm⟩

theorem dec_listHead (t b : Ty) (bs : List Ty) :
    2 * ((normalize b).tsize + (normalize t).tsize) + 1 <
      2 * (Ty.tsizeList (b :: bs) + t.tsize) + 1 := by
  have h1 := tsize_normalize_le b
  have h2 := tsize_normalize_le t
  have h5 := tsizeList_pos bs
  simp only [Ty.tsizeList]
  omega

theorem dec_listTail (t b : Ty) (bs : List Ty) :
    2 * (Ty.tsizeList bs + t.tsize) + 1 < 2 * (Ty.tsizeList (b :: bs) + t.tsize) + 1 := by
  have h3 := tsize_pos b
  simp only [Ty.tsizeList]
  omega

theorem dec_listHeadR (f b : Ty) (bs : List Ty) :
    2 * ((normalize f).tsize + (normalize b).tsize) + 1 <
      2 * (f.tsize + Ty.tsizeList (b :: bs)) + 1 := by
  have h1 := tsize_normalize_le f
  have h2 := tsize_normalize_le b
  have h5 := tsizeList_pos bs
  simp only [Ty.tsizeList]
  omega

theorem dec_listTailR (f b : Ty) (bs : List Ty) :
    2 * (f.tsize + Ty.tsizeList bs) + 1 < 2 * (f.tsize + Ty.tsizeList (b :: bs)) + 1 := by
  have h3 := tsize_pos b
  simp only [Ty.tsizeList]
  omega

mutual

/-- Model of `CanCastImpl<From, To>` (src/cheerp/jshelper.h lines 36-43).
When both sides are arithmetic the specialization defers to
`std::is_convertible_v`, which is true for every pair of arithmetic types;
otherwise the primary template's value is
`is_void_v<To> || is_void_v<From> || is_same_v<From, _Any> ||
 is_same_v<To, _Any> || is_base_of_v<To, From> || CanCastHelper<From, To>::value`.
The helper is instantiated unconditionally by that initializer, so an
ill-formed helper instantiation (`none`) poisons the result. -/
def canCastI (f t : Ty) : Option Bool :=
  if isArithT f && isArithT t then some true
  else
    match canCastH f t with
    | none => none
    | some h =>
      some (isVoidT t || isVoidT f || isAnyT f || isAnyT t || isBaseOf t f || h)
termination_by 2 * (f.tsize + t.tsize) + 1
decreasing_by omega

/-- Model of the `CanCastHelper` partial specializations (src/cheerp/jshelper.h
lines 32-84) under C++ partial-ordering: union/union (lines 73-76) beats the
one-sided union specializations; a union source against a non-union class
template instantiation is ambiguous between lines 77-80 and lines 48-60, hence
ill-formed (`none`); union source (lines 77-80); union destination
(lines 81-84); the `_Function` specializations (lines 65-72), falling back to
the same-template pairwise rule (lines 61-64) when the parameter-list shapes
fit neither; `TArray`/`TArray` via lines 61-64; a class-template destination
with an unrelated source via the deduced unique base instantiation
(lines 48-60); and the primary template's `false` (lines 32-35).  Nested
`CanCast<X, Y>` uses (lines 44-45) normalize both sides. -/
def canCastH (f t : Ty) : Option Bool :=
  match f, t with
  | .unionTy fs, .unionTy ts => canCastAllTo fs (.unionTy ts)
  | .unionTy fs, t => if isTemplateInst t then none else canCastAllTo fs t
  | f, .unionTy ts => canCastAnyTo f ts
  | .functionTy (.fnTy r1 []), .functionTy (.fnTy r2 qs) =>
    canCastI (normalize r1) (normalize r2)
  | .functionTy (.fnTy r1 (p :: ps)), .functionTy (.fnTy r2 (q :: qs)) =>
    oand (canCastI (normalize q) (normalize p))
      (canCastH (.functionTy (.fnTy r1 ps)) (.functionTy (.fnTy r2 qs)))
  | .functionTy s1, .functionTy s2 => canCastI (normalize s1) (normalize s2)
  | .tarray e1, .tarray e2 => canCastI (normalize e1) (normalize e2)
  | f, .tarray e =>
    (match hu : uniqueCandidate ((ancestors f).filter isTArrayInst) with
     | some b => canCastI (normalize (.ptr b)) (normalize (.ptr (.tarray e)))
     | none => some false)
  | f, .functionTy s =>
    (match hu : uniqueCandidate ((ancestors f).filter isFunctionInst) with
     | some b => canCastI (normalize (.ptr b)) (normalize (.ptr (.functionTy s)))
     | none => some false)
  | _, _ => some false
termination_by 2 * (f.tsize + t.tsize)
decreasing_by
all_goals try simp only [normalize_ptr]
all_goals try simp only [stripCV, Ty.tsize, Ty.tsizeList]
all_goals first
  | omega
  | (have h1 := tsize_normalize_le r1
     have h2 := tsize_normalize_le r2
     omega)
  | (have h1 := tsize_normalize_le q
     have h2 := tsize_normalize_le p
     have h3 := tsize_pos q
     have h4 := tsize_pos p
     omega)
  | (have h1 := tsize_normalize_le s1
     have h2 := tsize_normalize_le s2
     omega)
  | (have h1 := tsize_normalize_le e1
     have h2 := tsize_normalize_le e2
     omega)
  | (have hm := uniqueCandidate_filter hu
     have h2 := tsize_stripCV_le b
     have h1 := tsize_lt_of_mem_ancestors_ti hm.1 (isTemplateInst_of_isTArrayInst hm.2)
     omega)
  | (have hm := uniqueCandidate_filter hu
     have h2 := tsize_stripCV_le b
     have h1 := tsize_lt_of_mem_ancestors_ti hm.1 (isTemplateInst_of_isFunctionInst hm.2)
     omega)

/-- Fold of `(CanCast<From, To> && ...)` over the variants of a source union
(src/cheerp/jshelper.h lines 75 and 79). -/
def canCastAllTo (vs : List Ty) (t : Ty) : Option Bool :=
  match vs with
  | [] => some true
  | v :: rest => oand (canCastI (normalize v) (normalize t)) (canCastAllTo rest t)
termination_by 2 * (Ty.tsizeList vs + t.tsize) + 1
decreasing_by
all_goals first
  | apply dec_listHead
  | apply dec_listTail

/-- Fold of `(CanCast<From, To> || ...)` over the variants of a destination
union (src/cheerp/jshelper.h line 83). -/
def canCastAnyTo (f : Ty) (ts : List Ty) : Option Bool :=
  match ts with
  | [] => some false
  | u :: rest => oor (canCastI (normalize f) (normalize u)) (canCastAnyTo f rest)
termination_by 2 * (f.tsize + Ty.tsizeList ts) + 1
decreasing_by
all_goals first
  | apply dec_listHeadR
  | apply dec_listTailR

end

/-- Model of the entry point `CanCast<From, To>` with a single destination
(src/cheerp/jshelper.h lines 44-45): `CanCastImpl<Normalize<From>,
Normalize<To>>::value`. -/
def canCast (f t : Ty) : Option Bool :=
  canCastI (normalize f) (normalize t)

theorem normalize_void : normalize .void = .void := rfl

theorem normalize_arith (i : Nat) : normalize (.arith i) = .arith i := rfl

theorem normalize_anyTy : normalize .anyTy = .anyTy := rfl

theorem normalize_unionTy (l : List Ty) : normalize (.unionTy l) = .unionTy l := rfl

theorem normalize_functionTy (s : Ty) : normalize (.functionTy s) = .functionTy s := rfl

theorem normalize_fnTy (r : Ty) (ps : List Ty) : normalize (.fnTy r ps) = .fnTy r ps := rfl

theorem normalize_tarray (e : Ty) : normalize (.tarray e) = .tarray e := rfl

theorem normalize_arrTy (e : Ty) (n : Nat) : normalize (.arrTy e n) = .arrTy e n := rfl

theorem normalize_named (i : Nat) (bs : List Ty) : normalize (.named i bs) = .named i bs := rfl

theorem canCastH_simpleDst (f t : Ty) (hu : isUnionT t = false)
    (ht : isTemplateInst t = false) :
    canCastH f t = match f with
      | .unionTy fs => canCastAllTo fs t
      | _ => some false := by
  cases f <;> cases t <;> simp_all [canCastH, isUnionT, isTemplateInst]

theorem canCastH_unionDst (f : Ty) (ts : List Ty) (hu : isUnionT f = false) :
    canCastH f (.unionTy ts) = canCastAnyTo f ts := by
  cases f <;> simp_all [canCastH, isUnionT]

theorem simpleDst_isSome_aux : ∀ n,
    (∀ f t : Ty, f.tsize ≤ n → isUnionT t = false → isTemplateInst t = false →
      normalize t = t → (canCastI f t).isSome = true) ∧
    (∀ vs : List Ty, ∀ t : Ty, Ty.tsizeList vs ≤ n → isUnionT t = false →
      isTemplateInst t = false → normalize t = t →
      (canCastAllTo vs t).isSome = true) := by
  intro n
  induction n with
  | zero =>
    refine ⟨fun f t hf _ _ _ => absurd hf (by have := tsize_pos f; omega),
            fun vs t hv _ _ _ => absurd hv (by have := tsizeList_pos vs; omega)⟩
  | succ n ih =>
    constructor
    · intro f t hf hu ht hn
      have hH := canCastH_simpleDst f t hu ht
      cases f with
      | unionTy fs =>
        have hall := ih.2 fs t (by simp only [Ty.tsize] at hf; omega) hu ht hn
        rw [Option.isSome_iff_exists] at hall
        obtain ⟨b, hb⟩ := hall
        simp only [canCastI, hH, hb]
        split <;> simp
      | _ =>
        simp only [canCastI, hH]
        split <;> simp
    · intro vs t hv hu ht hn
      cases vs with
      | nil => simp [canCastAllTo]
      | cons v rest =>
        have h1 : (normalize v).tsize ≤ n := by
          have := tsize_normalize_le v
          have := tsizeList_pos rest
          simp only [Ty.tsizeList] at hv
          omega
        have h2 : Ty.tsizeList rest ≤ n := by
          have := tsize_pos v
          simp only [Ty.tsizeList] at hv
          omega
        have hv1 := ih.1 (normalize v) t h1 hu ht hn
        have hv2 := ih.2 rest t h2 hu ht hn
        rw [Option.isSome_iff_exists] at hv1 hv2
        obtain ⟨b1, hb1⟩ := hv1
        obtain ⟨b2, hb2⟩ := hv2
        simp [canCastAllTo, hn, hb1, hb2, oand]

theorem canCastI_simpleDst_isSome {f t : Ty} (hu : isUnionT t = false)
    (ht : isTemplateInst t = false) (hn : normalize t = t) :
    (canCastI f t).isSome = true :=
  (simpleDst_isSome_aux f.tsize).1 f t le_rfl hu ht hn

theorem universalDst_aux : ∀ n,
    (∀ f : Ty, f.tsize ≤ n →
      canCastI f .void = some true ∧ canCastI f .anyTy = some true) ∧
    (∀ vs : List Ty, Ty.tsizeList vs ≤ n →
      canCastAllTo vs .void = some true ∧ canCastAllTo vs .anyTy = some true) := by
  intro n
  induction n with
  | zero =>
    refine ⟨fun f hf => absurd hf (by have := tsize_pos f; omega),
            fun vs hv => absurd hv (by have := tsizeList_pos vs; omega)⟩
  | succ n ih =>
    constructor
    · intro f hf
      cases f with
      | unionTy fs =>
        have hall := ih.2 fs (by simp only [Ty.tsize] at hf; omega)
        constructor <;>
          simp [canCastI, canCastH, isTemplateInst, hall.1, hall.2, isArithT,
            isVoidT, isAnyT]
      | _ =>
        constructor <;> simp [canCastI, canCastH, isArithT, isVoidT, isAnyT]
    · intro vs hv
      cases vs with
      | nil => exact ⟨by simp [canCastAllTo], by simp [canCastAllTo]⟩
      | cons v rest =>
        have h1 : (normalize v).tsize ≤ n := by
          have := tsize_normalize_le v
          have := tsizeList_pos rest
          simp only [Ty.tsizeList] at hv
          omega
        have h2 : Ty.tsizeList rest ≤ n := by
          have := tsize_pos v
          simp only [Ty.tsizeList] at hv
          omega
        have hv1 := ih.1 (normalize v) h1
        have hrest := ih.2 rest h2
        constructor <;>
          simp [canCastAllTo, normalize_void, normalize_anyTy, hv1.1, hv1.2,
            hrest.1, hrest.2, oand]

theorem canCastI_void_dst (f : Ty) : canCastI f .void = some true :=
  ((universalDst_aux f.tsize).1 f le_rfl).1

theorem canCastI_any_dst (f : Ty) : canCastI f .anyTy = some true :=
  ((universalDst_aux f.tsize).1 f le_rfl).2

theorem universalSrc_aux : ∀ n,
    (∀ t : Ty, t.tsize ≤ n →
      canCastI .void t = some true ∧ canCastI .anyTy t = some true) ∧
    (∀ ts : List Ty, Ty.tsizeList ts ≤ n →
      (canCastAnyTo .void ts).isSome = true ∧ (canCastAnyTo .anyTy ts).isSome = true) := by
  intro n
  induction n with
  | zero =>
    refine ⟨fun t ht => absurd ht (by have := tsize_pos t; omega),
            fun ts hts => absurd hts (by have := tsizeList_pos ts; omega)⟩
  | succ n ih =>
    constructor
    · intro t ht
      cases t with
      | unionTy ts =>
        have hany := ih.2 ts (by simp only [Ty.tsize] at ht; omega)
        have h1 := hany.1
        have h2 := hany.2
        rw [Option.isSome_iff_exists] at h1 h2
        obtain ⟨b1, hb1⟩ := h1
        obtain ⟨b2, hb2⟩ := h2
        constructor <;>
          simp [canCastI, canCastH, isArithT, isVoidT, isAnyT, hb1, hb2]
      | _ =>
        constructor <;>
          simp [canCastI, canCastH, isArithT, isVoidT, isAnyT, ancestors,
            uniqueCandidate]
    · intro ts hts
      cases ts with
      | nil => exact ⟨by simp [canCastAnyTo], by simp [canCastAnyTo]⟩
      | cons u rest =>
        have h1 : (normalize u).tsize ≤ n := by
          have := tsize_normalize_le u
          have := tsizeList_pos rest
          simp only [Ty.tsizeList] at hts
          omega
        have h2 : Ty.tsizeList rest ≤ n := by
          have := tsize_pos u
          simp only [Ty.tsizeList] at hts
          omega
        have hu1 := ih.1 (normalize u) h1
        have hrest := ih.2 rest h2
        have hr1 := hrest.1
        have hr2 := hrest.2
        rw [Option.isSome_iff_exists] at hr1 hr2
        obtain ⟨b1, hb1⟩ := hr1
        obtain ⟨b2, hb2⟩ := hr2
        constructor <;>
          simp [canCastAnyTo, normalize_void, normalize_anyTy, hu1.1, hu1.2,
            hb1, hb2, oor]

theorem canCastI_void_src (t : Ty) : canCastI .void t = some true :=
  ((universalSrc_aux t.tsize).1 t le_rfl).1

theorem canCastI_any_src (t : Ty) : canCastI .anyTy t = some true :=
  ((universalSrc_aux t.tsize).1 t le_rfl).2

theorem beq_iff_eq_aux : ∀ n,
    (∀ a b : Ty, a.tsize ≤ n → (Ty.beq a b = true ↔ a = b)) ∧
    (∀ l m : List Ty, Ty.tsizeList l ≤ n → (Ty.beqList l m = true ↔ l = m)) := by
  intro n
  induction n with
  | zero =>
    refine ⟨fun a b ha => absurd ha (by have := tsize_pos a; omega),
            fun l m hl => absurd hl (by have := tsizeList_pos l; omega)⟩
  | succ n ih =>
    have hty : ∀ a b : Ty, a.tsize ≤ n + 1 → (Ty.beq a b = true ↔ a = b) := by
      intro a b ha
      cases a with
      | void => cases b <;> simp [Ty.beq]
      | arith i => cases b <;> simp [Ty.beq]
      | anyTy => cases b <;> simp [Ty.beq]
      | unionTy vs =>
        cases b <;> simp only [Ty.beq] <;> try simp
        case unionTy ws =>
          rw [ih.2 vs ws (by simp only [Ty.tsize] at ha; omega)]
      | functionTy s =>
        cases b <;> simp only [Ty.beq] <;> try simp
        case functionTy s2 =>
          rw [ih.1 s s2 (by simp only [Ty.tsize] at ha; have := tsize_pos s; omega)]
      | fnTy r ps =>
        cases b <;> simp only [Ty.beq] <;> try simp
        case fnTy r2 qs =>
          rw [ih.1 r r2 (by simp only [Ty.tsize] at ha; have := tsizeList_pos ps; omega),
            ih.2 ps qs (by simp only [Ty.tsize] at ha; have := tsize_pos r; omega)]
      | tarray e =>
        cases b <;> simp only [Ty.beq] <;> try simp
        case tarray e2 =>
          rw [ih.1 e e2 (by simp only [Ty.tsize] at ha; omega)]
      | arrTy e len =>
        cases b <;> simp only [Ty.beq] <;> try simp
        case arrTy e2 len2 =>
          intro _
          rw [ih.1 e e2 (by simp only [Ty.tsize] at ha; omega)]
      | named i bs =>
        cases b <;> simp only [Ty.beq] <;> try simp
        case named j cs =>
          intro _
          rw [ih.2 bs cs (by simp only [Ty.tsize] at ha; omega)]
      | ptr x =>
        cases b <;> simp only [Ty.beq] <;> try simp
        case ptr y =>
          rw [ih.1 x y (by simp only [Ty.tsize] at ha; omega)]
      | ref x =>
        cases b <;> simp only [Ty.beq] <;> try simp
        case ref y =>
          rw [ih.1 x y (by simp only [Ty.tsize] at ha; omega)]
      | constQ x =>
        cases b <;> simp only [Ty.beq] <;> try simp
        case constQ y =>
          rw [ih.1 x y (by simp only [Ty.tsize] at ha; omega)]
      | volatileQ x =>
        cases b <;> simp only [Ty.beq] <;> try simp
        case volatileQ y =>
          rw [ih.1 x y (by simp only [Ty.tsize] at ha; omega)]
    constructor
    · exact hty
    · intro l m hl
      cases l with
      | nil => cases m <;> simp [Ty.beqList]
      | cons x xs =>
        cases m with
        | nil => simp [Ty.beqList]
        | cons y ys =>
          have hx : x.tsize ≤ n + 1 := by
            simp only [Ty.tsizeList] at hl
            have := tsizeList_pos xs
            omega
          have hxs : Ty.tsizeList xs ≤ n := by
            simp only [Ty.tsizeList] at hl
            have := tsize_pos x
            omega
          simp only [Ty.beqList, Bool.and_eq_true, hty x y hx, ih.2 xs ys hxs]
          simp

theorem beq_iff_eq (a b : Ty) : Ty.beq a b = true ↔ a = b :=
  (beq_iff_eq_aux a.tsize).1 a b le_rfl

theorem beq_eq_false_of_ne {a b : Ty} (h : a ≠ b) : Ty.beq a b = false := by
  cases hb : Ty.beq a b
  · rfl
  · exact absurd ((beq_iff_eq a b).mp hb) h

theorem stripCV_idem : (t : Ty) → stripCV (stripCV t) = stripCV t
  | .constQ u => by simpa [stripCV] using stripCV_idem u
  | .volatileQ u => by simpa [stripCV] using stripCV_idem u
  | .void | .arith _ | .anyTy | .unionTy _ | .functionTy _ | .fnTy _ _
  | .tarray _ | .arrTy _ _ | .named _ _ | .ptr _ | .ref _ => rfl

theorem stripCV_normalize (t : Ty) : stripCV (normalize t) = normalize t := by
  unfold normalize
  exact stripCV_idem _

theorem removeReference_eq_of_not_ref {t : Ty} (h : isRefT t = false) :
    removeReference t = t := by
  cases t <;> simp [isRefT, removeReference] at h ⊢

theorem removePointer_eq_of_not_ptr {t : Ty} (h1 : isPtrT t = false)
    (h2 : stripCV t = t) : removePointer t = t := by
  unfold removePointer
  rw [h2]
  cases t <;> simp [isPtrT] at h1 ⊢

/-- The arithmetic type `int`. -/
def intTy : Ty := .arith 0

/-- The arithmetic type `char` (the identity compared against by
`IsCharPointer`, src/cheerp/jshelper.h line 29). -/
def charTy : Ty := .arith 1

/-- Example base class `Animal` used by the specification's variance test. -/
def Animal : Ty := .named 0 []

/-- Example class `Dog`, derived from `Animal`. -/
def Dog : Ty := .named 1 [Animal]

/-- Example class `Cat`, unrelated to `Animal`. -/
def Cat : Ty := .named 2 []

/-- Example class `ClassA`, a base-less named class. -/
def ClassA : Ty := .named 10 []

/-- Example class `ClassB`, a base-less named class unrelated to `ClassA`. -/
def ClassB : Ty := .named 11 []

/-- Modelled from the spec: the premise of fallback rule 9, "host static
implicit-conversion / reference-binding convertibility between the two
normalized named types" (`std::is_convertible_v` of the host language).  The
host's user-declared implicit conversions (converting constructors and
conversion operators) are not derivable from the type shapes alone, so they
are supplied as an explicit table `conv`; arithmetic conversions and
derived-to-base convertibility are structural. -/
def hostImplicitConvertible (conv : List (Ty × Ty)) (f t : Ty) : Bool :=
  (isArithT f && isArithT t) || isBaseOf t f ||
    conv.any fun p => Ty.beq p.1 f && Ty.beq p.2 t

/-- Model of a foreign future handle (`client::Promise`), carrying only the
observable fact the consuming side could depend on: whether it is already
settled. -/
structure Promise where
  settled : Bool

/-- Model of `promise_awaiter_base` (src/cheerp/coroutine.h lines 33-40): the
awaiter stores the promise it is bound to. -/
structure promise_awaiter_base where
  promise : Promise

/-- Model of `promise_awaiter_base::await_ready` (src/cheerp/coroutine.h
lines 34-36): it returns `false` without inspecting the promise. -/
def promise_awaiter_base.await_ready (_ : promise_awaiter_base) : Bool :=
  false

/-- Outcome of reaching an `co_await` expression. -/
inductive AwaitAction where
  | suspendToScheduler
  | continueSync

/-- The host language's await protocol: when `await_ready()` returns true the
routine continues synchronously, otherwise it suspends and control returns to
the scheduler. -/
def awaitStep (a : promise_awaiter_base) : AwaitAction :=
  if a.await_ready then .continueSync else .suspendToScheduler

/-- Runtime values crossing the boundary, as far as the argument adapter
distinguishes them: a `char` pointer carrying string data, a plain integer, a
constructed `client::String` wrapper with its observed content, an address of
a referenced object, and other opaque objects. -/
inductive Val where
  | charPtr (s : String)
  | intVal (n : Int)
  | strObj (s : String)
  | addr (v : Val)
  | obj (tag : String)

/-- Modelled from the spec: `makeString` is only declared in this repository
(src/cheerp/jshelper.h line 157, body external); per the adapter contract it
constructs a fresh `String` wrapper whose observed content equals the char
data it was built from. -/
def makeString : Val → Val
  | .charPtr s => .strObj s
  | _ => .strObj ""

/-- Model of `IsCharPointer` (src/cheerp/jshelper.h lines 28-29):
`std::is_pointer_v<std::decay_t<T>> &&
 std::is_same_v<std::remove_cv_t<std::remove_pointer_t<std::decay_t<T>>>, char>`. -/
def IsCharPointer (t : Ty) : Bool :=
  isPtrT (decay t) && Ty.beq (stripCV (removePointer (decay t))) charTy

/-- Model of `IsConstReference` (src/cheerp/jshelper.h lines 30-31):
`std::is_reference_v<T> && std::is_const_v<std::remove_reference_t<T>>`. -/
def IsConstReference (t : Ty) : Bool :=
  isRefT t && isConstT (removeReference t)

/-- Model of `clientCast` (src/cheerp/jshelper.h lines 158-167), applied to a
value whose deduced static type is `T`: a char pointer is promoted through
`makeString`, a const reference is turned into the address of the referenced
object, and any other value is forwarded unchanged. -/
def clientCast (T : Ty) (v : Val) : Val :=
  if IsCharPointer T then makeString v
  else if IsConstReference T then .addr v
  else v

/-- C1: with `Animal` a base class and `Dog` derived from it,
`CanCast(Function(Dog,[Animal]), Function(Animal,[Dog]))` evaluates to true
(covariant return type, contravariant parameter type), while the reversed
comparison `CanCast(Function(Animal,[Dog]), Function(Dog,[Animal]))` evaluates
to false. -/
theorem claim_C1_function_variance :
    canCast (.functionTy (.fnTy Dog [Animal])) (.functionTy (.fnTy Animal [Dog]))
      = some true ∧
    canCast (.functionTy (.fnTy Animal [Dog])) (.functionTy (.fnTy Dog [Animal]))
      = some false := by
  constructor <;>
    simp [canCast, canCastI, canCastH, canCastAllTo, canCastAnyTo, normalize,
      removePointer, removeReference, stripCV, isArithT, isVoidT, isAnyT,
      isBaseOf, isClassT, memTy, ancestors, ancestorsList, Ty.beq, Ty.beqList,
      oand, oor, isTemplateInst, uniqueCandidate, isTArrayInst, isFunctionInst,
      Animal, Dog, directBases]

/-- C4: for every type `X`, `CanCast(X, Any)` and `CanCast(Any, X)` both
evaluate to true: `client::_Any` is unconditionally compatible as source and
as destination with every type, arithmetic types included. -/
theorem claim_C4_any_universal (X : Ty) :
    canCast X .anyTy = some true ∧ canCast .anyTy X = some true := by
  constructor
  · rw [canCast, normalize_anyTy]
    exact canCastI_any_dst (normalize X)
  · rw [canCast, normalize_anyTy]
    exact canCastI_any_src (normalize X)

/-- C9: if either side of a cast normalizes to `void`, then `CanCast` evaluates
to true: `void` is accepted both as a universal source and as a universal
destination (the `is_void_v` disjuncts of `CanCastImpl`), a rule the
specification's list does not state. -/
theorem claim_C9_void_universal (F T : Ty)
    (h : isVoidT (normalize F) = true ∨ isVoidT (normalize T) = true) :
    canCast F T = some true := by
  rcases h with h | h
  · have hv : normalize F = .void := by
      cases hF : normalize F <;> rw [hF] at h <;> simp [isVoidT] at h <;> rfl
    rw [canCast, hv]
    exact canCastI_void_src _
  · have hv : normalize T = .void := by
      cases hT : normalize T <;> rw [hT] at h <;> simp [isVoidT] at h <;> rfl
    rw [canCast, hv]
    exact canCastI_void_dst _

/-- Witness for C9 at the concrete input `F = void`, `T = int`. -/
theorem claim_C9_witness : canCast .void intTy = some true :=
  claim_C9_void_universal .void intTy (Or.inl rfl)

/-- C5 counterexample: the normalizer is not idempotent on a double pointer:
`Normalize<int**>` is `int*` (one reference, one pointer and the cv-qualifiers
are stripped, not all of them), and normalizing again yields `int`. -/
theorem claim_C5_counterexample :
    normalize (normalize (.ptr (.ptr intTy))) ≠ normalize (.ptr (.ptr intTy)) :=
  fun h => Ty.noConfusion h

/-- C5 amended: normalization is idempotent exactly on the types whose
normal form is not itself a pointer or reference: if `Normalize T` is neither
a pointer nor a reference then `Normalize (Normalize T) = Normalize T`.
(Types with several pointer levels, such as `int**`, violate the original
claim.) -/
theorem claim_C5_amended (T : Ty) (hp : isPtrT (normalize T) = false)
    (hr : isRefT (normalize T) = false) :
    normalize (normalize T) = normalize T := by
  have hcv : stripCV (normalize T) = normalize T := stripCV_normalize T
  conv_lhs => rw [normalize]
  rw [removeReference_eq_of_not_ref hr, removePointer_eq_of_not_ptr hp hcv, hcv]

/-- Witness for C5 amended at the concrete input `T = int`. -/
theorem claim_C5_witness : normalize (normalize intTy) = normalize intTy :=
  claim_C5_amended intTy rfl rfl

/-- C6 counterexample: take two unrelated named classes `ClassA` and `ClassB`
where the host language allows an implicit conversion from `ClassA` to
`ClassB` (a user-declared conversion, supplied in the conversion table).  The
pair is named, not arithmetic, and `ClassB` is not a base of `ClassA`, yet
`CanCast(ClassA, ClassB)` evaluates to false: `CanCastImpl` consults
`std::is_convertible_v` only in its both-arithmetic specialization, so the
claimed fallback rule does not exist in the code. -/
theorem claim_C6_counterexample :
    hostImplicitConvertible [(ClassA, ClassB)] ClassA ClassB = true ∧
    canCast ClassA ClassB = some false ∧
    (isArithT ClassA && isArithT ClassB) = false ∧
    isBaseOf ClassB ClassA = false := by
  refine ⟨?_, ?_, ?_, ?_⟩ <;>
    simp [hostImplicitConvertible, ClassA, ClassB, canCast, canCastI, canCastH,
      canCastAllTo, canCastAnyTo, normalize, removePointer, removeReference,
      stripCV, isArithT, isVoidT, isAnyT, isBaseOf, isClassT, memTy, ancestors,
      ancestorsList, Ty.beq, Ty.beqList, oand, oor, isTemplateInst,
      uniqueCandidate, isTArrayInst, isFunctionInst, directBases]

/-- C6 amended: between two normalized named class types the oracle accepts
exactly the base-class relation: `CanCast(named, named)` equals
`is_base_of(To, From)`; no host implicit-conversion fallback is consulted
(`is_convertible_v` appears only in the both-arithmetic specialization). -/
theorem claim_C6_amended (i j : Nat) (bs cs : List Ty) :
    canCast (.named i bs) (.named j cs)
      = some (isBaseOf (.named j cs) (.named i bs)) := by
  rw [canCast, normalize_named, normalize_named]
  simp [canCastI, canCastH, isArithT, isVoidT, isAnyT]

theorem beq_union_right_false {x : Ty} (l : List Ty) (h : isUnionT x = false) :
    Ty.beq x (.unionTy l) = false := by
  cases x <;> simp [isUnionT, Ty.beq] at h ⊢

theorem stripCV_eq_self_of_normalized {t : Ty} (hn : normalize t = t) :
    stripCV t = t := by
  conv_lhs => rw [← hn]
  rw [stripCV_normalize, hn]

theorem isBaseOf_union_right_false {t : Ty} (l : List Ty)
    (hu : isUnionT t = false) (hn : normalize t = t) :
    isBaseOf t (.unionTy l) = false := by
  have h1 := stripCV_eq_self_of_normalized hn
  simp [isBaseOf, stripCV, h1, beq_union_right_false l hu, memTy, ancestors]

theorem isVoidT_eq_false {x : Ty} (h : x ≠ Ty.void) : isVoidT x = false := by
  cases x <;> simp_all [isVoidT]

theorem isAnyT_eq_false {x : Ty} (h : x ≠ Ty.anyTy) : isAnyT x = false := by
  cases x <;> simp_all [isAnyT]

theorem canCastI_unionSrc_simple (A B t2 : Ty) (hu : isUnionT t2 = false)
    (ht : isTemplateInst t2 = false) (hn : normalize t2 = t2)
    (hv : isVoidT t2 = false) (ha : isAnyT t2 = false) :
    canCastI (.unionTy [A, B]) t2
      = oand (canCastI (normalize A) t2) (canCastI (normalize B) t2) := by
  have hH := canCastH_simpleDst (.unionTy [A, B]) t2 hu ht
  have hsA := canCastI_simpleDst_isSome (f := normalize A) hu ht hn
  have hsB := canCastI_simpleDst_isSome (f := normalize B) hu ht hn
  rw [Option.isSome_iff_exists] at hsA hsB
  obtain ⟨a, hA⟩ := hsA
  obtain ⟨b, hB⟩ := hsB
  have hBase := isBaseOf_union_right_false (t := t2) [A, B] hu hn
  rw [hA, hB, canCastI.eq_def, hH]
  simp only [isArithT, Bool.false_and, canCastAllTo, hn, hA, hB, oand, hBase,
    hv, ha]
  simp [isVoidT, isAnyT]

/-- C2 counterexample: with `A = B = int` and `T = int**`, the source claims
`CanCast(Union(int,int), int**) == CanCast(int,int**) && CanCast(int,int**)`.
The left side is true: the outer `CanCast` normalizes `int**` once to `int*`,
and the per-variant test `CanCast<int, int*>` normalizes `int*` again to
`int`, an arithmetic pair.  The right side is false: `CanCast(int, int**)`
compares `int` against `int*`, which no rule accepts. -/
theorem claim_C2_counterexample :
    canCast (.unionTy [intTy, intTy]) (.ptr (.ptr intTy)) = some true ∧
    oand (canCast intTy (.ptr (.ptr intTy))) (canCast intTy (.ptr (.ptr intTy)))
      = some false := by
  constructor <;>
    simp [canCast, canCastI, canCastH, canCastAllTo, canCastAnyTo, normalize,
      removePointer, removeReference, stripCV, isArithT, isVoidT, isAnyT,
      isBaseOf, isClassT, memTy, ancestors, ancestorsList, Ty.beq, Ty.beqList,
      oand, oor, isTemplateInst, uniqueCandidate, isTArrayInst, isFunctionInst,
      intTy, directBases]

/-- C2 amended: `CanCast(Union(A,B), T) == CanCast(A,T) && CanCast(B,T)` holds
for every `A`, `B` and every `T` whose normal form is stable under a second
normalization (ruling out multi-level pointers such as `int**`), is not a
union, and is not an instantiation of a class template (where the union-source
helper instantiation is ambiguous, hence ill-formed). -/
theorem claim_C2_amended (A B T : Ty)
    (hn : normalize (normalize T) = normalize T)
    (hu : isUnionT (normalize T) = false)
    (ht : isTemplateInst (normalize T) = false) :
    canCast (.unionTy [A, B]) T = oand (canCast A T) (canCast B T) := by
  rw [canCast, canCast, canCast, normalize_unionTy]
  by_cases hv : normalize T = Ty.void
  · rw [hv, canCastI_void_dst, canCastI_void_dst, canCastI_void_dst]
    rfl
  by_cases ha : normalize T = Ty.anyTy
  · rw [ha, canCastI_any_dst, canCastI_any_dst, canCastI_any_dst]
    rfl
  exact canCastI_unionSrc_simple A B (normalize T) hu ht hn
    (isVoidT_eq_false hv) (isAnyT_eq_false ha)

/-- Witness for C2 amended at the concrete input `A = B = T = int`. -/
theorem claim_C2_witness :
    canCast (.unionTy [intTy, intTy]) intTy
      = oand (canCast intTy intTy) (canCast intTy intTy) :=
  claim_C2_amended intTy intTy intTy rfl rfl rfl

theorem canCastI_unionDst_simple (A B t2 : Ty) (hu : isUnionT t2 = false)
    (hn : normalize t2 = t2) (hb : isBaseOf (.unionTy [A, B]) t2 = false)
    (hv : isVoidT t2 = false) (ha : isAnyT t2 = false) :
    canCastI t2 (.unionTy [A, B])
      = oor (canCastI t2 (normalize A)) (canCastI t2 (normalize B)) := by
  have hH := canCastH_unionDst t2 [A, B] hu
  cases hA : canCastI t2 (normalize A) with
  | none =>
    rw [canCastI.eq_def, hH]
    simp only [canCastAnyTo, hn, hA, isArithT, Bool.and_false]
    simp [oor]
  | some a =>
    cases hB : canCastI t2 (normalize B) with
    | none =>
      rw [canCastI.eq_def, hH]
      simp only [canCastAnyTo, hn, hA, hB, isArithT, Bool.and_false]
      simp [oor]
    | some b =>
      rw [canCastI.eq_def, hH]
      simp only [canCastAnyTo, hn, hA, hB, isArithT, Bool.and_false, hb, hv, ha, oor]
      simp [isVoidT, isAnyT]

/-- C3 counterexample: with `A = Animal`, `B = Cat` (unrelated classes) and
`T = Union(Animal, Cat)` itself, the source claims
`CanCast(T, Union(A,B)) == CanCast(T,A) || CanCast(T,B)`.  The left side is
true because `is_base_of_v<_Union<Animal,Cat>, _Union<Animal,Cat>>` holds (a
class is a base of itself), but a union source is compatible with a non-union
destination only when every variant is, so both disjuncts on the right are
false. -/
theorem claim_C3_counterexample :
    canCast (.unionTy [Animal, Cat]) (.unionTy [Animal, Cat]) = some true ∧
    oor (canCast (.unionTy [Animal, Cat]) Animal)
        (canCast (.unionTy [Animal, Cat]) Cat) = some false := by
  constructor <;>
    simp [canCast, canCastI, canCastH, canCastAllTo, canCastAnyTo, normalize,
      removePointer, removeReference, stripCV, isArithT, isVoidT, isAnyT,
      isBaseOf, isClassT, memTy, ancestors, ancestorsList, Ty.beq, Ty.beqList,
      oand, oor, isTemplateInst, uniqueCandidate, isTArrayInst, isFunctionInst,
      Animal, Cat, directBases]

/-- C3 amended: `CanCast(T, Union(A,B)) == CanCast(T,A) || CanCast(T,B)` holds
for every `A`, `B` and every `T` whose normal form is stable under a second
normalization, is not itself a union, and is not a class having
`Union(A,B)` among its bases (in particular `T` must not be `Union(A,B)`
itself, on which the original claim fails through the self-base rule). -/
theorem claim_C3_amended (A B T : Ty)
    (hn : normalize (normalize T) = normalize T)
    (hu : isUnionT (normalize T) = false)
    (hb : isBaseOf (.unionTy [A, B]) (normalize T) = false) :
    canCast T (.unionTy [A, B]) = oor (canCast T A) (canCast T B) := by
  rw [canCast, canCast, canCast, normalize_unionTy]
  by_cases hv : normalize T = Ty.void
  · rw [hv, canCastI_void_src, canCastI_void_src, canCastI_void_src]
    rfl
  by_cases ha : normalize T = Ty.anyTy
  · rw [ha, canCastI_any_src, canCastI_any_src, canCastI_any_src]
    rfl
  exact canCastI_unionDst_simple A B (normalize T) hu hn hb
    (isVoidT_eq_false hv) (isAnyT_eq_false ha)

/-- Witness for C3 amended at the concrete input `A = B = T = int`. -/
theorem claim_C3_witness :
    canCast intTy (.unionTy [intTy, intTy])
      = oor (canCast intTy intTy) (canCast intTy intTy) :=
  claim_C3_amended intTy intTy intTy rfl rfl rfl

/-- C7: the promise awaiter reports "not ready" unconditionally: whatever the
settled state of the awaited foreign future, `await_ready()` returns false and
the awaiting routine therefore suspends and yields to the scheduler instead of
continuing synchronously. -/
theorem claim_C7_await_ready_false (p : Promise) :
    (promise_awaiter_base.mk p).await_ready = false ∧
    awaitStep (promise_awaiter_base.mk p) = .suspendToScheduler := by
  constructor
  · rfl
  · rfl

/-- C8: the argument adapter `clientCast` promotes a char-pointer
(string-literal-shaped) argument to a freshly constructed `String` wrapper via
`makeString` (instantiated here at the deduced type of the literal `"hello"`,
`const char (&)[6]`, whose wrapper content equals the pointed-to data); for a
const-reference argument that is not a char pointer it returns the address of
the referenced object; and every other argument (for example a plain integer)
passes through unchanged. -/
theorem claim_C8_clientCast_adapter (T : Ty) (v : Val) (s : String) (n : Int) :
    clientCast (.ref (.arrTy (.constQ charTy) 6)) (.charPtr s)
      = makeString (.charPtr s) ∧
    makeString (.charPtr s) = .strObj s ∧
    clientCast intTy (.intVal n) = .intVal n ∧
    (IsCharPointer T = true → clientCast T v = makeString v) ∧
    (IsCharPointer T = false → IsConstReference T = true →
      clientCast T v = .addr v) ∧
    (IsCharPointer T = false → IsConstReference T = false → clientCast T v = v) := by
  refine ⟨rfl, rfl, rfl, ?_, ?_, ?_⟩
  · intro h1
    simp [clientCast, h1]
  · intro h1 h2
    simp [clientCast, h1, h2]
  · intro h1 h2
    simp [clientCast, h1, h2]

/-- Witness for C8 at the concrete input of a const reference to an `Object`:
the adapter passes the address of the referenced object. -/
theorem claim_C8_witness :
    clientCast (.ref (.constQ ObjectClass)) (.obj "x") = .addr (.obj "x") :=
  (claim_C8_clientCast_adapter (.ref (.constQ ObjectClass)) (.obj "x") "" 0).2.2.2.2.1
    rfl rfl

/-- C10 counterexample: with `R1 = R2 = int**` and an empty destination
parameter list, `CanCast(Function(int**,[]), Function(int**,[]))` is true
because the two `_Function` types are the same class (the `is_base_of` self
rule), yet `CanCast(int**, int**)` is false (both sides normalize to `int*`,
which no rule accepts), so the claimed equality with `CanCast(R1, R2)` fails. -/
theorem claim_C10_counterexample :
    canCast (.functionTy (.fnTy (.ptr (.ptr intTy)) []))
        (.functionTy (.fnTy (.ptr (.ptr intTy)) [])) = some true ∧
    canCast (.ptr (.ptr intTy)) (.ptr (.ptr intTy)) = some false := by
  constructor <;>
    simp [canCast, canCastI, canCastH, canCastAllTo, canCastAnyTo, normalize,
      removePointer, removeReference, stripCV, isArithT, isVoidT, isAnyT,
      isBaseOf, isClassT, memTy, ancestors, ancestorsList, Ty.beq, Ty.beqList,
      oand, oor, isTemplateInst, uniqueCandidate, isTArrayInst, isFunctionInst,
      intTy, directBases, FunctionClass, ObjectClass]

/-- C10 amended: for every return types `R1`, `R2` and destination parameter
list `ps` of any length, provided the two function descriptors are not the
identical type (`Function(R1,[]) = Function(R2, ps)` triggers the
`is_base_of` self rule instead), a zero-parameter source function is
compatible with a destination of any arity exactly when `CanCast(R1, R2)`:
no parameter-list reconciliation is required. -/
theorem claim_C10_amended (R1 R2 : Ty) (ps : List Ty)
    (h : Ty.fnTy R1 [] ≠ Ty.fnTy R2 ps) :
    canCast (.functionTy (.fnTy R1 [])) (.functionTy (.fnTy R2 ps))
      = canCast R1 R2 := by
  rw [canCast, canCast, normalize_functionTy, normalize_functionTy]
  have hne : Ty.beq (Ty.fnTy R2 ps) (Ty.fnTy R1 []) = false :=
    beq_eq_false_of_ne fun hh => h hh.symm
  have hBase : isBaseOf (.functionTy (.fnTy R2 ps)) (.functionTy (.fnTy R1 [])) = false := by
    have hstep : Ty.beq (.functionTy (.fnTy R2 ps)) (.functionTy (.fnTy R1 []))
        = Ty.beq (.fnTy R2 ps) (.fnTy R1 []) := rfl
    simp only [isBaseOf, stripCV, isClassT, hstep, hne, Bool.false_or, Bool.true_and]
    simp [memTy, ancestors, Ty.beq, FunctionClass, ObjectClass]
  rw [canCastI.eq_def]
  simp only [isArithT, Bool.false_and, canCastH, hBase, isVoidT, isAnyT]
  cases hr : canCastI (normalize R1) (normalize R2) with
  | none => rfl
  | some b => simp

/-- Witness for C10 amended at the concrete input `R1 = Dog`, `R2 = Animal`,
`ps = [Animal]`. -/
theorem claim_C10_witness :
    canCast (.functionTy (.fnTy Dog [])) (.functionTy (.fnTy Animal [Animal]))
      = canCast Dog Animal :=
  claim_C10_amended Dog Animal [Animal] (by simp)

end Cheerp
